import Mathlib

/-!
Verification of the ShellPort analyzer (shellport.py, compat_db.py).

A line of a scanned file is modelled as a `List Char` (produced by
`splitlines`, so it never contains a newline character).  Python string
operations used by the analyzer (`strip`, `split`, `re.split`,
`os.path.basename`, `re.sub("#.*$", "", _)`) are embedded as executable
functions on `List Char`; each definition's doc comment names the Python
operation it embeds.  Whitespace handling is modelled for the ASCII
whitespace characters, which is exact for the ASCII inputs the analyzer
is specified on.
-/

set_option maxHeartbeats 1000000

abbrev Str := List Char

/-- ASCII whitespace: the characters stripped by Python `str.strip()` and
used as separators by no-argument `str.split()`. -/
def isSpace (c : Char) : Bool :=
  c = ' ' || c = '\t' || c = '\n' || c = '\r' || c = '\x0b' || c = '\x0c'

/-- Python `str.strip()`: remove leading and trailing whitespace. -/
def strip (l : Str) : Str :=
  ((l.dropWhile isSpace).reverse.dropWhile isSpace).reverse

/-- Accumulator loop for no-argument `str.split()`. -/
def splitWsAux : Str → Str → List Str
  | [], acc => if acc.isEmpty then [] else [acc.reverse]
  | c :: cs, acc =>
    if isSpace c then
      if acc.isEmpty then splitWsAux cs [] else acc.reverse :: splitWsAux cs []
    else splitWsAux cs (c :: acc)

/-- Python `str.split()` with no argument: maximal runs of non-whitespace
characters, with no empty tokens. -/
def splitWs (l : Str) : List Str := splitWsAux l []

/-- Separator class of `re.split(r"[|;&]+", line)` in `extract_commands`. -/
def isSep (c : Char) : Bool := c = '|' || c = ';' || c = '&'

mutual
/-- Accumulator loop for `re.split(r"[|;&]+", line)`: collects the current
segment; a separator ends it and hands the rest to `splitSepsGap`. -/
def splitSepsAux : Str → Str → List Str
  | [], acc => [acc.reverse]
  | c :: cs, acc =>
    if isSep c then acc.reverse :: splitSepsGap cs else splitSepsAux cs (c :: acc)

/-- Skips the remainder of a maximal separator run, then resumes
collecting the next segment. -/
def splitSepsGap : Str → List Str
  | [] => [[]]
  | c :: cs => if isSep c then splitSepsGap cs else splitSepsAux cs [c]
end

/-- Python `re.split(r"[|;&]+", line)`: split on every maximal run of
`|`, `;`, `&`; empty segments remain at the ends when the string starts
or ends with a separator run. -/
def splitSeps (l : Str) : List Str := splitSepsAux l []

/-- Python `re.sub(r"#.*$", "", line)` restricted to newline-free input
(the analyzer only applies it to single lines produced by `splitlines`):
everything from the first `#` on is removed. -/
def stripComment (l : Str) : Str := l.takeWhile (fun c => c != '#')

/-- Python `os.path.basename` on POSIX: the text after the last `/`. -/
def basename (t : Str) : Str := (t.reverse.takeWhile (fun c => c != '/')).reverse

/-- Python `t.startswith("-")`. -/
def startsDash (t : Str) : Bool :=
  match t with
  | '-' :: _ => true
  | [] => false
  | _ :: _ => false

/-- The target platforms of compat_db.py (`PLATFORMS`). -/
inductive Platform
  | linux
  | macos
  | alpine
deriving DecidableEq, Fintype, Repr

/-- The `FLAG_COMPAT` table of compat_db.py: for a command name, the
association list of flags with their known support sets; `none` when the
command has no entry. -/
def FLAG_COMPAT : String → Option (List (String × Finset Platform))
  | "sed" => some [("-i", {Platform.linux, Platform.alpine}),
                   ("-r", {Platform.linux, Platform.alpine}),
                   ("-E", {Platform.linux, Platform.macos, Platform.alpine})]
  | "grep" => some [("-P", {Platform.linux}),
                    ("-E", {Platform.linux, Platform.macos, Platform.alpine}),
                    ("-o", {Platform.linux, Platform.macos, Platform.alpine}),
                    ("-r", {Platform.linux, Platform.macos}),
                    ("-R", {Platform.linux, Platform.macos, Platform.alpine}),
                    ("-w", {Platform.linux, Platform.macos, Platform.alpine})]
  | "readlink" => some [("-f", {Platform.linux, Platform.alpine}),
                        ("-e", {Platform.linux, Platform.alpine})]
  | "date" => some [("-d", {Platform.linux, Platform.alpine}),
                    ("-j", {Platform.macos}),
                    ("-I", {Platform.linux, Platform.alpine})]
  | "mktemp" => some [("-d", {Platform.linux, Platform.macos, Platform.alpine}),
                      ("--tmpdir", {Platform.linux, Platform.alpine})]
  | "stat" => some [("-c", {Platform.linux, Platform.alpine}),
                    ("-f", {Platform.macos})]
  | "find" => some [("-regextype", {Platform.linux, Platform.alpine}),
                    ("-maxdepth", {Platform.linux, Platform.macos, Platform.alpine}),
                    ("-print0", {Platform.linux, Platform.macos, Platform.alpine})]
  | "sort" => some [("-V", {Platform.linux, Platform.alpine}),
                    ("-h", {Platform.linux, Platform.alpine}),
                    ("-R", {Platform.linux})]
  | "tar" => some [("--wildcards", {Platform.linux, Platform.alpine}),
                   ("--exclude", {Platform.linux, Platform.macos, Platform.alpine})]
  | "xargs" => some [("-r", {Platform.linux, Platform.alpine}),
                     ("-0", {Platform.linux, Platform.macos, Platform.alpine})]
  | "cp" => some [("--reflink", {Platform.linux}),
                  ("-a", {Platform.linux, Platform.macos, Platform.alpine})]
  | "ln" => some [("-r", {Platform.linux, Platform.alpine})]
  | "install" => some [("-D", {Platform.linux, Platform.alpine})]
  | _ => none

/-- The `FIXES` table of compat_db.py, keyed by (command, flag). -/
def FIXES : String → String → Option String
  | "sed", "-i" => some "sed -i.bak 's/.../' f && rm f.bak  (portable across GNU & BSD)"
  | "sed", "-r" => some "Use sed -E instead (portable extended regex)"
  | "grep", "-P" => some "Use grep -E (ERE) or install ripgrep for PCRE"
  | "readlink", "-f" => some "Use: cd $(dirname $0) && pwd -P  (POSIX alternative)"
  | "readlink", "-e" => some "Use: cd $(dirname $0) && pwd -P  (POSIX alternative)"
  | "date", "-d" => some "Use python3/perl for portable date arithmetic"
  | "date", "-j" => some "Use python3/perl for portable date arithmetic"
  | "date", "-I" => some "Use: date '+%Y-%m-%d'  (POSIX format string)"
  | "stat", "-c" => some "Write a wrapper: stat -c on Linux, stat -f on macOS"
  | "stat", "-f" => some "Write a wrapper: stat -c on Linux, stat -f on macOS"
  | "sort", "-V" => some "Use sort -t. -k1,1n -k2,2n for version-like sorting"
  | "sort", "-R" => some "Use: awk 'BEGIN\x7bsrand()\x7d\x7bprint rand(),$0\x7d' | sort -n | cut -d' ' -f2-"
  | "xargs", "-r" => some "Guard with: if [ -n \"$input\" ]; then ... fi"
  | "cp", "--reflink" => some "Use plain cp -a (loses reflink optimization)"
  | "ln", "-r" => some "Compute relative path manually with realpath"
  | "install", "-D" => some "mkdir -p $(dirname dest) && cp src dest"
  | "find", "-regextype" => some "Use -name with glob patterns instead"
  | "tar", "--wildcards" => some "Omit --wildcards (default on BSD tar)"
  | _, _ => none

/-- Lookup of `FLAG_COMPAT.get(cmd, {})` followed by `flag in db` /
`db[flag]`: the known support set of a (command, flag) pair. -/
def flagSupport (cmd flag : String) : Option (Finset Platform) :=
  ((FLAG_COMPAT cmd).getD []).lookup flag

/-- Python `sorted(...)` applied to a set of platform names: the names in
ascending string order, which for these three names is the fixed order
alpine, linux, macos. -/
def sortedPlatformNames (s : Finset Platform) : List String :=
  (if Platform.alpine ∈ s then ["alpine"] else []) ++
  (if Platform.linux ∈ s then ["linux"] else []) ++
  (if Platform.macos ∈ s then ["macos"] else [])

/-- A finding as built by `check_compat` (the dict before `scan` adds the
`file` and `line` keys). -/
structure Finding where
  command : String
  flag : String
  supported : List String
  unsupported : List String
  fix : String
deriving DecidableEq, Repr

/-- Loop body of `check_compat` for one flag: `none` when the flag has no
entry for this command or when `targets - supported` is empty, otherwise
the finding dict that gets appended. -/
def findingFor (cmd flag : String) (targets : Finset Platform) : Option Finding :=
  match flagSupport cmd flag with
  | none => none
  | some supported =>
    let missing := targets \ supported
    if missing = ∅ then none
    else some { command := cmd, flag := flag,
                supported := sortedPlatformNames (supported ∩ targets),
                unsupported := sortedPlatformNames missing,
                fix := (FIXES cmd flag).getD "Check POSIX spec for portable alternative" }

/-- The `check_compat` function of shellport.py: iterate over `flags` in
order, appending a finding for each flag whose known support set misses
some target. -/
def check_compat (cmd : String) (flags : List String) (targets : Finset Platform) :
    List Finding :=
  flags.foldl (fun findings flag => findings ++ (findingFor cmd flag targets).toList) []

/-- Loop body of `extract_commands` for one segment of the separator
split: tokenize on whitespace; the command name is the final path
component of the first token, the flags are the later tokens that start
with `-`; the segment contributes only if the command is in
`FLAG_COMPAT`. -/
def segmentInvocation (part : Str) : Option (String × List String) :=
  match splitWs part with
  | [] => none
  | tok0 :: rest =>
    let cmd := (basename tok0).asString
    let flags := (rest.filter startsDash).map List.asString
    if (FLAG_COMPAT cmd).isSome then some (cmd, flags) else none

/-- The `extract_commands` function of shellport.py: strip the trailing
`#`-comment, trim, return `[]` for an empty remainder, otherwise split on
maximal `|`/`;`/`&` runs and collect one invocation per recognized
segment, in order. -/
def extract_commands (line : Str) : List (String × List String) :=
  let stripped := strip (stripComment line)
  if stripped.isEmpty then []
  else
    (splitSeps stripped).foldl
      (fun results part => results ++ (segmentInvocation part).toList) []

/-- Line-break characters recognized by Python `str.splitlines()`. -/
def isLineBreak (c : Char) : Bool :=
  c = '\n' || c = '\r' || c = '\x0b' || c = '\x0c' ||
  c = '\x1c' || c = '\x1d' || c = '\x1e' || c = '\x85' ||
  c = ' ' || c = ' '

/-- Accumulator loop for `str.splitlines()`; a `\r\n` pair is a single
line break. -/
def splitlinesAux : Str → Str → List Str
  | [], acc => if acc.isEmpty then [] else [acc.reverse]
  | '\r' :: '\n' :: cs, acc => acc.reverse :: splitlinesAux cs []
  | c :: cs, acc =>
    if isLineBreak c then acc.reverse :: splitlinesAux cs []
    else splitlinesAux cs (c :: acc)

/-- Python `str.splitlines()`: the physical lines of a file's text, with
no trailing empty line for text ending in a line break. -/
def splitlines (l : Str) : List Str := splitlinesAux l []

/-- Python `enumerate(lines, i)`: pair each line with its index counting
from `i`. -/
def enumFrom : Nat → List Str → List (Nat × Str)
  | _, [] => []
  | i, l :: rest => (i, l) :: enumFrom (i + 1) rest

/-- Test `s.upper().startswith("RUN ")` of the Dockerfile branch of
`parse_file` (`Char.toUpper` is the ASCII uppercasing that `str.upper`
performs on ASCII text). -/
def isRunInstruction (s : Str) : Bool :=
  match s.map Char.toUpper with
  | 'R' :: 'U' :: 'N' :: ' ' :: _ => true
  | _ => false

/-- Dockerfile branch of `parse_file`: yield `s[4:]` of each trimmed line
whose uppercase form starts with `RUN `. -/
def dockerLines (lines : List Str) : List (Nat × Str) :=
  (enumFrom 1 lines).filterMap (fun p =>
    let s := strip p.2
    if isRunInstruction s then some (p.1, s.drop 4) else none)

/-- Makefile/Justfile branch of `parse_file`: yield the trimmed form of
each line that starts with a horizontal tab. -/
def makeLines (lines : List Str) : List (Nat × Str) :=
  (enumFrom 1 lines).filterMap (fun p =>
    if p.2.head? = some '\t' then some (p.1, strip p.2) else none)

/-- Python `re.match(r"run\s*:\s*\|?\s*$", s)` as a Bool: the trimmed
line is `run`, optional whitespace, `:`, optional whitespace, an optional
`|`, optional whitespace, and nothing else. -/
def yamlRunEntry (s : Str) : Bool :=
  match s with
  | 'r' :: 'u' :: 'n' :: rest =>
    match rest.dropWhile isSpace with
    | ':' :: r2 =>
      (match r2.dropWhile isSpace with
       | [] => true
       | '|' :: r4 => (r4.dropWhile isSpace).isEmpty
       | _ => false)
    | _ => false
  | _ => false

/-- Word characters of the regex class `\w` on ASCII text. -/
def isWordChar (c : Char) : Bool := c.isAlpha || c.isDigit || c = '_'

/-- Python `re.match(r"^\w[\w-]*:", s)` as a Bool: a word character,
then word characters or hyphens, then a colon, at the start of `s`. -/
def yamlKeyLine (s : Str) : Bool :=
  match s with
  | [] => false
  | c :: rest =>
    isWordChar c &&
      (match rest.dropWhile (fun d => isWordChar d || d = '-') with
       | ':' :: _ => true
       | _ => false)

/-- YAML branch of `parse_file`: the two-state scanner over the lines,
carrying the `in_run` flag and the 1-based index of the next line. -/
def yamlLines : List Str → Bool → Nat → List (Nat × Str)
  | [], _, _ => []
  | line :: rest, inRun, i =>
    let s := strip line
    if yamlRunEntry s then yamlLines rest true (i + 1)
    else if inRun && !s.isEmpty && !yamlKeyLine s then (i, s) :: yamlLines rest inRun (i + 1)
    else if yamlKeyLine s then yamlLines rest false (i + 1)
    else yamlLines rest inRun (i + 1)

/-- One entry of the scanned directory tree: its path components
relative to the scan root, whether it is a regular file, and the text
`Path.read_text(errors="ignore")` returns — `none` when the read raises
`OSError`.  The model takes the scan root itself to not lie under a
`.git` directory, so the `".git" in path.parts` test of `scan` depends
only on the relative components. -/
structure FSEntry where
  parts : List Str
  isFile : Bool
  content : Option Str
deriving DecidableEq, Repr

/-- Python `os.path.basename(filepath)` and `Path.name`: the final path
component. -/
def nameOf (e : FSEntry) : Str := (e.parts.getLast?).getD []

/-- Python `Path.suffix`: the part of the final component from its last
dot on, empty when the last dot is the first character, the last
character, or absent. -/
def suffixOf (name : Str) : Str :=
  let rev := name.reverse
  let after := rev.takeWhile (fun c => c != '.')
  if after.length = rev.length then []
  else if after.isEmpty then []
  else if after.length + 1 = rev.length then []
  else '.' :: after.reverse

/-- The `SCAN_EXTS` set of shellport.py. -/
def scanExts : List Str :=
  [".sh".toList, ".bash".toList, ".zsh".toList, ".yml".toList, ".yaml".toList, ".mk".toList]

/-- The `SCAN_NAMES` set of shellport.py. -/
def scanNames : List Str :=
  ["Makefile".toList, "Justfile".toList, "Dockerfile".toList]

/-- The `parse_file` function of shellport.py on one tree entry: an
unreadable file yields nothing, otherwise the lines of the text are
dispatched on the file's extension or base name. -/
def parse_file (e : FSEntry) : List (Nat × Str) :=
  match e.content with
  | none => []
  | some text =>
    let lines := splitlines text
    let name := nameOf e
    let ext := suffixOf name
    if ext = ".sh".toList ∨ ext = ".bash".toList ∨ ext = ".zsh".toList then
      enumFrom 1 lines
    else if name = "Dockerfile".toList then dockerLines lines
    else if name = "Makefile".toList ∨ name = "Justfile".toList then makeLines lines
    else if ext = ".yml".toList ∨ ext = ".yaml".toList then yamlLines lines false 1
    else []

/-- Python `str(path.relative_to(root))`: the components joined with
`/`. -/
def joinSlash : List Str → Str
  | [] => []
  | [p] => p
  | p :: rest => p ++ '/' :: joinSlash rest

/-- A finding dict after `scan` has added the `file` and `line` keys. -/
structure ScanFinding where
  file : Str
  line : Nat
  command : String
  flag : String
  supported : List String
  unsupported : List String
  fix : String
deriving DecidableEq, Repr

/-- Findings of one classified line of one tree entry: the inner two
loops of `scan`, with `f.update(file=..., line=lineno)` applied. -/
def lineFindings (targets : Finset Platform) (e : FSEntry) (p : Nat × Str) :
    List ScanFinding :=
  (extract_commands p.2).flatMap (fun inv =>
    (check_compat inv.1 inv.2 targets).map (fun f =>
      { file := joinSlash e.parts, line := p.1,
        command := f.command, flag := f.flag, supported := f.supported,
        unsupported := f.unsupported, fix := f.fix }))

/-- Findings of one tree entry: the inner three loops of `scan`. -/
def fileFindings (targets : Finset Platform) (e : FSEntry) : List ScanFinding :=
  (parse_file e).flatMap (lineFindings targets e)

/-- Python string comparison `a < b` (codepoint lexicographic, a proper
prefix is smaller). -/
def charsLt : Str → Str → Bool
  | _, [] => false
  | [], _ :: _ => true
  | a :: as, b :: bs => if a = b then charsLt as bs else decide (a.toNat < b.toNat)

/-- Python comparison of two component tuples, as used by `sorted` on
`Path` objects, whose `__lt__` compares the tuples of parts. -/
def partsLe : List Str → List Str → Bool
  | [], _ => true
  | _ :: _, [] => false
  | a :: as, b :: bs => if a = b then partsLe as bs else charsLt a b

/-- Insertion step of the stable sort of tree entries by parts. -/
def insertEntry (e : FSEntry) : List FSEntry → List FSEntry
  | [] => [e]
  | f :: rest => if partsLe e.parts f.parts then e :: f :: rest else f :: insertEntry e rest

/-- Python `sorted(Path(root).rglob("*"))`: the entries in ascending
order of their component tuples (a stable insertion sort; `sorted` is
stable, so ties keep their original order in both). -/
def sortEntries : List FSEntry → List FSEntry
  | [] => []
  | e :: rest => insertEntry e (sortEntries rest)

/-- Filter step of `scan`: regular files outside `.git` whose extension
or base name is recognized. -/
def eligible (e : FSEntry) : Bool :=
  e.isFile && !(e.parts.contains ".git".toList) &&
    (scanExts.contains (suffixOf (nameOf e)) || scanNames.contains (nameOf e))

/-- The `scan` function of shellport.py over the modelled tree. -/
def scan (fs : List FSEntry) (targets : Finset Platform) : List ScanFinding :=
  (sortEntries fs).flatMap (fun e => if eligible e then fileFindings targets e else [])

/-! Helper definitions and lemmas for the theorems. -/

/-- Inverse of a platform's rendered name. -/
def platformOfName : String → Option Platform
  | "linux" => some Platform.linux
  | "macos" => some Platform.macos
  | "alpine" => some Platform.alpine
  | _ => none

/-- The platform set denoted by a list of rendered platform names. -/
def namesToSet (l : List String) : Finset Platform :=
  (l.filterMap platformOfName).toFinset

/-- The target set `{"linux", "macos"}` used by the concrete scenarios. -/
def lmTargets : Finset Platform := {Platform.linux, Platform.macos}

theorem namesToSet_sortedPlatformNames :
    ∀ u : Finset Platform, namesToSet (sortedPlatformNames u) = u := by decide

theorem inter_union_diff_platform :
    ∀ s t : Finset Platform, (s ∩ t) ∪ (t \ s) = t := by decide

theorem inter_inter_diff_platform :
    ∀ s t : Finset Platform, (s ∩ t) ∩ (t \ s) = ∅ := by decide

theorem sortedPlatformNames_ne_nil :
    ∀ u : Finset Platform, u ≠ ∅ → sortedPlatformNames u ≠ [] := by decide

theorem namesToSet_ne_empty :
    ∀ u : Finset Platform, u ≠ ∅ → namesToSet (sortedPlatformNames u) ≠ ∅ := by decide

/-- A fold that appends one optional element per step is a `filterMap`. -/
theorem foldl_append_filterMap {α β : Type} (F : α → Option β) (l : List α) (acc : List β) :
    l.foldl (fun r a => r ++ (F a).toList) acc = acc ++ l.filterMap F := by
  induction l generalizing acc with
  | nil => simp
  | cons a l ih =>
    simp only [List.foldl_cons, List.filterMap_cons]
    cases h : F a <;> simp [h, ih]

/-- The append loop of `check_compat` produces exactly the per-flag
findings, in flag order. -/
theorem check_compat_eq_filterMap (cmd : String) (flags : List String)
    (targets : Finset Platform) :
    check_compat cmd flags targets = flags.filterMap (fun flag => findingFor cmd flag targets) := by
  unfold check_compat
  exact (foldl_append_filterMap (fun flag => findingFor cmd flag targets) flags []).trans
    (List.nil_append _)

theorem mem_check_compat {cmd : String} {flags : List String} {targets : Finset Platform}
    {f : Finding} :
    f ∈ check_compat cmd flags targets ↔
      ∃ flag ∈ flags, findingFor cmd flag targets = some f := by
  rw [check_compat_eq_filterMap]
  simp [List.mem_filterMap]

/-- Characterization of the one-flag loop body of `check_compat`. -/
theorem findingFor_eq_some {cmd flag : String} {targets : Finset Platform} {f : Finding} :
    findingFor cmd flag targets = some f ↔
      ∃ s, flagSupport cmd flag = some s ∧ targets \ s ≠ ∅ ∧
        f = { command := cmd, flag := flag,
              supported := sortedPlatformNames (s ∩ targets),
              unsupported := sortedPlatformNames (targets \ s),
              fix := (FIXES cmd flag).getD "Check POSIX spec for portable alternative" } := by
  unfold findingFor
  cases h : flagSupport cmd flag with
  | none => simp
  | some s =>
    dsimp only
    by_cases he : targets \ s = ∅
    · rw [if_pos he]
      constructor
      · intro hf
        exact absurd hf (by simp)
      · rintro ⟨s', hs', hne, _⟩
        obtain rfl : s = s' := by
          injection hs'
        exact absurd he hne
    · rw [if_neg he]
      constructor
      · intro hf
        exact ⟨s, rfl, he, (Option.some_inj.mp hf).symm⟩
      · rintro ⟨s', hs', hne, hf⟩
        obtain rfl : s = s' := by
          injection hs'
        rw [hf]

/-- The finding that `check_compat "grep" ["-P"] {linux, macos}` emits. -/
def grepPFinding : Finding :=
  { command := "grep", flag := "-P", supported := ["linux"], unsupported := ["macos"],
    fix := "Use grep -E (ERE) or install ripgrep for PCRE" }

/-- C1: for every (command, flag) pair present in the Knowledge Base, a
Finding emitted by `check_compat` carries supported and unsupported sets
that partition the target set, `check_compat` emits a Finding for the
flag iff `targets \ support` is non-empty, and consequently every
emitted Finding has a non-empty unsupported set. -/
theorem check_compat_partition :
    (∀ (cmd : String) (flags : List String) (targets : Finset Platform) (f : Finding),
        f ∈ check_compat cmd flags targets →
          namesToSet f.supported ∪ namesToSet f.unsupported = targets ∧
          namesToSet f.supported ∩ namesToSet f.unsupported = ∅ ∧
          namesToSet f.unsupported ≠ ∅) ∧
    (∀ (cmd flag : String) (targets s : Finset Platform),
        flagSupport cmd flag = some s → ∀ flags : List String, flag ∈ flags →
          ((∃ f ∈ check_compat cmd flags targets, f.flag = flag) ↔ targets \ s ≠ ∅)) := by
  constructor
  · intro cmd flags targets f hf
    obtain ⟨flag, _, hsome⟩ := mem_check_compat.mp hf
    obtain ⟨s, hs, hne, rfl⟩ := findingFor_eq_some.mp hsome
    refine ⟨?_, ?_, ?_⟩
    · simp only [namesToSet_sortedPlatformNames]
      exact inter_union_diff_platform s targets
    · simp only [namesToSet_sortedPlatformNames]
      exact inter_inter_diff_platform s targets
    · simpa using namesToSet_ne_empty _ hne
  · intro cmd flag targets s hs flags hmem
    constructor
    · rintro ⟨f, hf, hflag⟩
      obtain ⟨flag', _, hsome⟩ := mem_check_compat.mp hf
      obtain ⟨s', hs', hne, rfl⟩ := findingFor_eq_some.mp hsome
      dsimp at hflag
      subst hflag
      rw [hs] at hs'
      obtain rfl : s = s' := by
        injection hs'
      exact hne
    · intro hne
      refine ⟨_, mem_check_compat.mpr ⟨flag, hmem, findingFor_eq_some.mpr ⟨s, hs, hne, rfl⟩⟩, rfl⟩

theorem check_compat_partition_witness :
    (namesToSet grepPFinding.supported ∪ namesToSet grepPFinding.unsupported = lmTargets ∧
     namesToSet grepPFinding.supported ∩ namesToSet grepPFinding.unsupported = ∅ ∧
     namesToSet grepPFinding.unsupported ≠ ∅) ∧
    ((∃ f ∈ check_compat "grep" ["-P"] lmTargets, f.flag = "-P") ↔
      lmTargets \ {Platform.linux} ≠ ∅) :=
  ⟨check_compat_partition.1 "grep" ["-P"] lmTargets grepPFinding (by decide),
   check_compat_partition.2 "grep" "-P" lmTargets {Platform.linux} (by decide) ["-P"]
     (by decide)⟩

/-- C2: a (command, flag) pair absent from the Knowledge Base never
yields a Finding for that flag, and a command with no Knowledge Base
entry makes `check_compat` return the empty list for any flags and
targets. -/
theorem check_compat_unknown :
    (∀ (cmd flag : String) (flags : List String) (targets : Finset Platform),
        flagSupport cmd flag = none →
          ∀ f ∈ check_compat cmd flags targets, f.flag ≠ flag) ∧
    (∀ (cmd : String) (flags : List String) (targets : Finset Platform),
        FLAG_COMPAT cmd = none → check_compat cmd flags targets = []) := by
  constructor
  · intro cmd flag flags targets hnone f hf
    obtain ⟨flag', _, hsome⟩ := mem_check_compat.mp hf
    obtain ⟨s, hs, _, rfl⟩ := findingFor_eq_some.mp hsome
    intro hflag
    dsimp at hflag
    subst hflag
    rw [hnone] at hs
    cases hs
  · intro cmd flags targets hcmd
    rw [check_compat_eq_filterMap]
    have hsup : ∀ flag, flagSupport cmd flag = none := by
      intro flag
      unfold flagSupport
      rw [hcmd]
      rfl
    have : ∀ flag ∈ flags, findingFor cmd flag targets = none := by
      intro flag _
      unfold findingFor
      rw [hsup flag]
    rw [List.filterMap_eq_nil_iff]
    exact this

theorem check_compat_unknown_witness :
    (∀ f ∈ check_compat "grep" ["-i", "-z"] lmTargets, f.flag ≠ "-z") ∧
    check_compat "tr" ["-d"] lmTargets = [] :=
  ⟨check_compat_unknown.1 "grep" "-z" ["-i", "-z"] lmTargets (by decide),
   check_compat_unknown.2 "tr" ["-d"] lmTargets (by decide)⟩

/-- C7: every Finding of `check_compat` carries `support ∩ targets` as
its supported field and `targets \ support` as its unsupported field,
both rendered in ascending platform-name order (`charsLt` is Python
string comparison), and its fix comes from `FIXES` with the generic
POSIX message as the default. -/
theorem check_compat_fields :
    (∀ (cmd : String) (flags : List String) (targets : Finset Platform) (f : Finding),
        f ∈ check_compat cmd flags targets →
          ∃ s, flagSupport cmd f.flag = some s ∧
            f.supported = sortedPlatformNames (s ∩ targets) ∧
            f.unsupported = sortedPlatformNames (targets \ s) ∧
            f.fix = (FIXES cmd f.flag).getD "Check POSIX spec for portable alternative") ∧
    (∀ u : Finset Platform,
        List.Pairwise (fun a b : String => charsLt a.toList b.toList = true)
          (sortedPlatformNames u)) := by
  constructor
  · intro cmd flags targets f hf
    obtain ⟨flag, _, hsome⟩ := mem_check_compat.mp hf
    obtain ⟨s, hs, hne, rfl⟩ := findingFor_eq_some.mp hsome
    exact ⟨s, hs, rfl, rfl, rfl⟩
  · decide

theorem check_compat_fields_witness :
    ∃ s, flagSupport "grep" grepPFinding.flag = some s ∧
      grepPFinding.supported = sortedPlatformNames (s ∩ lmTargets) ∧
      grepPFinding.unsupported = sortedPlatformNames (lmTargets \ s) ∧
      grepPFinding.fix = (FIXES "grep" grepPFinding.flag).getD
        "Check POSIX spec for portable alternative" :=
  check_compat_fields.1 "grep" ["-P"] lmTargets grepPFinding (by decide)

/-- A list whose characters are all whitespace strips to nothing. -/
theorem strip_nil_of_all_space {l : Str} (h : ∀ c ∈ l, isSpace c) : strip l = [] := by
  unfold strip
  rw [List.dropWhile_eq_nil_iff.mpr h]
  rfl

/-- A list that strips to nothing is all whitespace. -/
theorem all_space_of_strip_nil {l : Str} (h : strip l = []) : ∀ c ∈ l, isSpace c := by
  unfold strip at h
  rw [List.reverse_eq_nil_iff] at h
  have h3 : ∀ c ∈ l.dropWhile isSpace, isSpace c := by
    intro c hc
    exact List.dropWhile_eq_nil_iff.mp h c (List.mem_reverse.mpr hc)
  intro c hc
  rw [← List.takeWhile_append_dropWhile isSpace l] at hc
  rcases List.mem_append.mp hc with h4 | h4
  · exact List.mem_takeWhile_imp h4
  · exact h3 c h4

/-- Dropping a prefix cannot remove the final element when the predicate
rejects it. -/
theorem getLast?_dropWhile_concat {p : Char → Bool} {a : Char} (ha : ¬ p a) :
    ∀ xs : Str, ((xs ++ [a]).dropWhile p).getLast? = some a := by
  intro xs
  induction xs with
  | nil =>
    rw [List.nil_append, List.dropWhile_cons_of_neg ha]
    rfl
  | cons x xs ih =>
    by_cases hx : p x
    · rw [List.cons_append, List.dropWhile_cons_of_pos hx]
      exact ih
    · rw [List.cons_append, List.dropWhile_cons_of_neg hx, ← List.cons_append]
      exact List.getLast?_concat _

/-- The first character of the stripped form of a line whose first
non-whitespace character exists is that character. -/
theorem head?_strip_cons {a : Char} {t : Str} (ha : ¬ isSpace a = true) :
    (strip (a :: t)).head? = some a := by
  unfold strip
  rw [List.dropWhile_cons_of_neg ha, List.head?_reverse, List.reverse_cons]
  exact getLast?_dropWhile_concat ha t.reverse

/-- A line stripping to nothing or to a string that starts with `#`
comment-strips to pure whitespace. -/
theorem stripComment_all_space :
    ∀ {l : Str}, (strip l = [] ∨ (strip l).head? = some '#') →
      ∀ c ∈ stripComment l, isSpace c := by
  intro l
  induction l with
  | nil =>
    intro _ c hc
    cases hc
  | cons a t ih =>
    intro h
    by_cases ha : isSpace a
    · have hs : strip (a :: t) = strip t := by
        unfold strip
        rw [List.dropWhile_cons_of_pos ha]
      have ha' : (a != '#') = true := by
        by_contra hne
        have haEq : a = '#' := by
          simpa using hne
        subst haEq
        exact absurd ha (by decide)
      have hsc : stripComment (a :: t) = a :: stripComment t := by
        simp [stripComment, List.takeWhile_cons, ha']
      rw [hsc]
      intro c hc
      rcases List.mem_cons.mp hc with rfl | hc'
      · exact ha
      · exact ih (hs ▸ h) c hc'
    · have hh : (strip (a :: t)).head? = some a := head?_strip_cons ha
      rcases h with h0 | h0
      · rw [h0] at hh
        cases hh
      · rw [h0] at hh
        have haEq : a = '#' := by
          injection hh with hh'
          exact hh'.symm
        subst haEq
        intro c hc
        rw [show stripComment ('#' :: t) = [] from by
          simp [stripComment, List.takeWhile_cons]] at hc
        cases hc

/-- C8: a line that is empty, pure whitespace, or nothing but a
`#`-comment after trimming yields no CommandInvocations. -/
theorem extract_commands_blank :
    ∀ line : Str, '\n' ∉ line →
      (strip line = [] ∨ (strip line).head? = some '#') →
      extract_commands line = [] := by
  intro line _ h
  have h0 : strip (stripComment line) = [] :=
    strip_nil_of_all_space (stripComment_all_space h)
  simp [extract_commands, h0]

theorem extract_commands_blank_witness :
    extract_commands "   # grep -P foo".toList = [] :=
  extract_commands_blank "   # grep -P foo".toList (by decide) (by decide)

/-- C3: `extract_commands` equals, segment for segment, the described
pipeline — comment-strip, trim, split on maximal `|`/`;`/`&` runs, then
one CommandInvocation per segment whose first token's final path
component is a known command, carrying exactly the later `-`-tokens in
order — so a line with N recognized segments yields exactly N
invocations, and the `sed -i` scenario extracts as specified. -/
theorem extract_commands_spec :
    (∀ line : Str, '\n' ∉ line →
        extract_commands line
            = (splitSeps (strip (stripComment line))).filterMap segmentInvocation ∧
        (extract_commands line).length
            = (splitSeps (strip (stripComment line))).countP
                (fun seg => (segmentInvocation seg).isSome)) ∧
    extract_commands "sed -i 's/foo/bar/' file.txt".toList = [("sed", ["-i"])] := by
  have key : ∀ line : Str,
      extract_commands line
        = (splitSeps (strip (stripComment line))).filterMap segmentInvocation := by
    intro line
    unfold extract_commands
    by_cases h : (strip (stripComment line)).isEmpty
    · have h0 : strip (stripComment line) = [] := by
        simpa using h
      simp only [h0]
      rfl
    · simp only [h, if_false]
      exact (foldl_append_filterMap segmentInvocation _ []).trans (List.nil_append _)
  refine ⟨fun line _ => ⟨key line, ?_⟩, by decide⟩
  rw [key line, List.length_filterMap_eq_countP]

theorem extract_commands_spec_witness :
    extract_commands "cat f | grep -P x; sort -V l".toList
        = (splitSeps (strip (stripComment "cat f | grep -P x; sort -V l".toList))).filterMap
            segmentInvocation ∧
    (extract_commands "cat f | grep -P x; sort -V l".toList).length
        = (splitSeps (strip (stripComment "cat f | grep -P x; sort -V l".toList))).countP
            (fun seg => (segmentInvocation seg).isSome) :=
  extract_commands_spec.1 "cat f | grep -P x; sort -V l".toList (by decide)

/-- A YAML CI file with a `run: |` block whose body is `grep -P 'x' f`
(the repository's own test file). -/
def ymlDemo : Str := "steps:\n  - name: test\n    run: |\n      grep -P 'x' f\n".toList

/-- C4: the YAML classifier is the two-state machine of the claim — a
trimmed `run:`-with-optional-`|` line enters the in-run state and is not
yielded; inside the state every non-empty trimmed non-key line is
yielded with its 1-based number; a key-pattern line exits the state and
is not yielded; any other line changes nothing — and scanning the
`run: |` file with body `grep -P 'x' f` against {linux, macos} yields
exactly one Finding, for `grep -P`. -/
theorem yaml_classifier_spec :
    (∀ (line : Str) (rest : List Str) (inRun : Bool) (i : Nat),
        yamlRunEntry (strip line) = true →
        yamlLines (line :: rest) inRun i = yamlLines rest true (i + 1)) ∧
    (∀ (line : Str) (rest : List Str) (i : Nat),
        yamlRunEntry (strip line) = false → strip line ≠ [] →
        yamlKeyLine (strip line) = false →
        yamlLines (line :: rest) true i = (i, strip line) :: yamlLines rest true (i + 1)) ∧
    (∀ (line : Str) (rest : List Str) (inRun : Bool) (i : Nat),
        yamlRunEntry (strip line) = false → yamlKeyLine (strip line) = true →
        yamlLines (line :: rest) inRun i = yamlLines rest false (i + 1)) ∧
    (∀ (line : Str) (rest : List Str) (inRun : Bool) (i : Nat),
        yamlRunEntry (strip line) = false → yamlKeyLine (strip line) = false →
        (inRun = false ∨ strip line = []) →
        yamlLines (line :: rest) inRun i = yamlLines rest inRun (i + 1)) ∧
    scan [⟨["ci.yml".toList], true, some ymlDemo⟩] lmTargets
        = [{ file := "ci.yml".toList, line := 4, command := "grep", flag := "-P",
             supported := ["linux"], unsupported := ["macos"],
             fix := "Use grep -E (ERE) or install ripgrep for PCRE" }] := by
  refine ⟨?_, ?_, ?_, ?_, by decide⟩
  · intro line rest inRun i h1
    simp [yamlLines, h1]
  · intro line rest i h1 h2 h3
    have hE : (strip line).isEmpty = false := by
      cases hE : (strip line).isEmpty
      · rfl
      · exact absurd (by simpa using hE) h2
    simp [yamlLines, h1, h3, hE]
  · intro line rest inRun i h1 h2
    simp [yamlLines, h1, h2]
  · intro line rest inRun i h1 h2 h3
    rcases h3 with h3 | h3
    · subst h3
      simp [yamlLines, h1, h2]
    · simp [yamlLines, h1, h2, h3, yamlRunEntry, yamlKeyLine]

theorem yaml_classifier_spec_witness :
    yamlLines ("run: |".toList :: ["  grep -P x".toList]) false 1
        = yamlLines ["  grep -P x".toList] true 2 :=
  yaml_classifier_spec.1 "run: |".toList ["  grep -P x".toList] false 1 (by decide)

/-- C10: an inline `run: cmd` mapping line is never yielded — a bare
`run: cmd` line matches the key pattern (not the entry pattern), so it
only exits the block, and a `- run: cmd` list-item line matches neither
pattern and is ignored while outside a run block. -/
theorem yaml_inline_run_never_candidate :
    (∀ (rest : List Str) (inRun : Bool) (i : Nat),
        yamlLines ("    run: grep -P x f".toList :: rest) inRun i
          = yamlLines rest false (i + 1)) ∧
    (∀ (rest : List Str) (i : Nat),
        yamlLines ("  - run: grep -P x f".toList :: rest) false i
          = yamlLines rest false (i + 1)) ∧
    yamlRunEntry (strip "    run: grep -P x f".toList) = false ∧
    yamlKeyLine (strip "    run: grep -P x f".toList) = true ∧
    yamlRunEntry (strip "  - run: grep -P x f".toList) = false ∧
    yamlKeyLine (strip "  - run: grep -P x f".toList) = false := by
  refine ⟨?_, ?_, by decide, by decide, by decide, by decide⟩
  · intro rest inRun i
    cases inRun <;> rfl
  · intro rest i
    rfl

/-- Python `enumerate(lines, i)` as an indexed map over `range`. -/
theorem enumFrom_eq_range (i : Nat) (ls : List Str) :
    enumFrom i ls = (List.range ls.length).map (fun k => (i + k, ls.getD k [])) := by
  induction ls generalizing i with
  | nil => rfl
  | cons l t ih =>
    simp only [enumFrom, List.length_cons, List.range_succ_eq_map, List.map_cons,
      List.map_map, ih (i + 1)]
    refine List.cons_eq_cons.mpr ⟨by simp, ?_⟩
    apply List.map_congr_left
    intro k _
    simp only [Function.comp_apply, List.getD_cons_succ, Prod.mk.injEq]
    exact ⟨by omega, trivial⟩

/-- Entries of `enumerate(lines, i)` carry indices at least `i`. -/
theorem enumFrom_le_of_mem : ∀ {i : Nat} {ls : List Str} {p : Nat × Str},
    p ∈ enumFrom i ls → i ≤ p.1 := by
  intro i ls
  induction ls generalizing i with
  | nil =>
    intro p hp
    cases hp
  | cons l t ih =>
    intro p hp
    rcases List.mem_cons.mp hp with rfl | hp'
    · exact Nat.le_refl i
    · exact Nat.le_of_succ_le (ih hp')

/-- The indices of `enumerate(lines, i)` are strictly increasing. -/
theorem enumFrom_pairwise (i : Nat) (ls : List Str) :
    List.Pairwise (fun p q : Nat × Str => p.1 < q.1) (enumFrom i ls) := by
  induction ls generalizing i with
  | nil => exact List.Pairwise.nil
  | cons l t ih =>
    refine List.Pairwise.cons ?_ (ih (i + 1))
    intro q hq
    exact Nat.lt_of_succ_le (enumFrom_le_of_mem hq)

/-- C5 counterexample: the shell-extension branch of the classifier also
yields empty physical lines — on a `.sh` file whose first physical line
is empty, the RawLine (1, "") is yielded. -/
theorem sh_classifier_counterexample :
    (1, ([] : Str)) ∈ parse_file ⟨["a.sh".toList], true, some "\necho hi".toList⟩ ∧
    splitlines "\necho hi".toList = [[], "echo hi".toList] := by decide

/-- C5 amended: for `.sh`/`.bash`/`.zsh` files the classifier yields
every physical line — empty ones included — verbatim, paired with its
1-based line number, in ascending line order (blank lines are discarded
later by the extractor, not by the classifier). -/
theorem sh_classifier_all_lines :
    ∀ (e : FSEntry) (text : Str), e.content = some text →
      (suffixOf (nameOf e) = ".sh".toList ∨ suffixOf (nameOf e) = ".bash".toList ∨
        suffixOf (nameOf e) = ".zsh".toList) →
      parse_file e = (List.range (splitlines text).length).map
          (fun k => (k + 1, (splitlines text).getD k [])) ∧
      List.Pairwise (fun p q : Nat × Str => p.1 < q.1) (parse_file e) := by
  intro e text hc hext
  have hp : parse_file e = enumFrom 1 (splitlines text) := by
    unfold parse_file
    rw [hc]
    rcases hext with h | h | h <;> simp [h]
  constructor
  · rw [hp, enumFrom_eq_range]
    congr 1
    funext k
    rw [Nat.add_comm]
  · rw [hp]
    exact enumFrom_pairwise 1 _

theorem sh_classifier_all_lines_witness :
    parse_file ⟨["b.sh".toList], true, some "a\n\ngrep -P x f".toList⟩
        = (List.range (splitlines "a\n\ngrep -P x f".toList).length).map
            (fun k => (k + 1, (splitlines "a\n\ngrep -P x f".toList).getD k [])) ∧
    List.Pairwise (fun p q : Nat × Str => p.1 < q.1)
        (parse_file ⟨["b.sh".toList], true, some "a\n\ngrep -P x f".toList⟩) :=
  sh_classifier_all_lines ⟨["b.sh".toList], true, some "a\n\ngrep -P x f".toList⟩
    "a\n\ngrep -P x f".toList (by rfl) (by decide)

/-- Character codepoints determine the character. -/
theorem char_toNat_inj {a b : Char} (h : a.toNat = b.toNat) : a = b := by
  have h2 := congrArg Char.ofNat h
  rwa [Char.ofNat_toNat, Char.ofNat_toNat] at h2

theorem charsLt_irrefl : ∀ l : Str, charsLt l l = false := by
  intro l
  induction l with
  | nil => rfl
  | cons a t ih => simp [charsLt, ih]

theorem charsLt_trans : ∀ {a b c : Str},
    charsLt a b = true → charsLt b c = true → charsLt a c = true := by
  intro a
  induction a with
  | nil =>
    intro b c hab hbc
    cases b with
    | nil => cases hab
    | cons bh bt =>
      cases c with
      | nil => cases hbc
      | cons ch ct => rfl
  | cons ah at' ih =>
    intro b c hab hbc
    cases b with
    | nil => cases hab
    | cons bh bt =>
      cases c with
      | nil => cases hbc
      | cons ch ct =>
        simp only [charsLt] at hab hbc ⊢
        by_cases h1 : ah = bh
        · subst h1
          rw [if_pos rfl] at hab
          by_cases h2 : ah = ch
          · subst h2
            rw [if_pos rfl] at hbc
            rw [if_pos rfl]
            exact ih hab hbc
          · rw [if_neg h2] at hbc
            rw [if_neg h2]
            exact hbc
        · rw [if_neg h1] at hab
          by_cases h2 : bh = ch
          · subst h2
            rw [if_neg h1]
            exact hab
          · rw [if_neg h2] at hbc
            by_cases h3 : ah = ch
            · subst h3
              exact absurd (Nat.lt_trans (of_decide_eq_true hab) (of_decide_eq_true hbc))
                (Nat.lt_irrefl _)
            · rw [if_neg h3]
              exact decide_eq_true
                (Nat.lt_trans (of_decide_eq_true hab) (of_decide_eq_true hbc))

theorem charsLt_total_of_ne : ∀ {a b : Str}, a ≠ b →
    charsLt a b = true ∨ charsLt b a = true := by
  intro a
  induction a with
  | nil =>
    intro b hne
    cases b with
    | nil => exact absurd rfl hne
    | cons bh bt => exact Or.inl rfl
  | cons ah at' ih =>
    intro b hne
    cases b with
    | nil => exact Or.inr rfl
    | cons bh bt =>
      simp only [charsLt]
      by_cases h1 : ah = bh
      · subst h1
        rw [if_pos rfl, if_pos rfl]
        exact ih (fun h => hne (by rw [h]))
      · rw [if_neg h1, if_neg (fun h => h1 h.symm)]
        have hnat : ah.toNat ≠ bh.toNat := fun h => h1 (char_toNat_inj h)
        rcases Nat.lt_or_ge ah.toNat bh.toNat with h2 | h2
        · exact Or.inl (decide_eq_true h2)
        · exact Or.inr (decide_eq_true (Nat.lt_of_le_of_ne h2 (fun h => hnat h.symm)))

theorem partsLe_total : ∀ a b : List Str, partsLe a b = true ∨ partsLe b a = true := by
  intro a
  induction a with
  | nil =>
    intro b
    exact Or.inl rfl
  | cons ah at' ih =>
    intro b
    cases b with
    | nil => exact Or.inr rfl
    | cons bh bt =>
      simp only [partsLe]
      by_cases h1 : ah = bh
      · subst h1
        rw [if_pos rfl, if_pos rfl]
        exact ih bt
      · rw [if_neg h1, if_neg (fun h => h1 h.symm)]
        exact charsLt_total_of_ne h1

theorem partsLe_trans : ∀ {a b c : List Str},
    partsLe a b = true → partsLe b c = true → partsLe a c = true := by
  intro a
  induction a with
  | nil =>
    intro b c _ _
    rfl
  | cons ah at' ih =>
    intro b c hab hbc
    cases b with
    | nil => cases hab
    | cons bh bt =>
      cases c with
      | nil => cases hbc
      | cons ch ct =>
        simp only [partsLe] at hab hbc ⊢
        by_cases h1 : ah = bh
        · subst h1
          rw [if_pos rfl] at hab
          by_cases h2 : ah = ch
          · subst h2
            rw [if_pos rfl] at hbc
            rw [if_pos rfl]
            exact ih hab hbc
          · rw [if_neg h2] at hbc
            rw [if_neg h2]
            exact hbc
        · rw [if_neg h1] at hab
          by_cases h2 : bh = ch
          · subst h2
            rw [if_neg h1]
            exact hab
          · rw [if_neg h2] at hbc
            by_cases h3 : ah = ch
            · subst h3
              have : charsLt ah ah = true := charsLt_trans hab hbc
              rw [charsLt_irrefl] at this
              cases this
            · rw [if_neg h3]
              exact charsLt_trans hab hbc

/-- Python list comparison of component tuples, strictly. -/
def partsLt : List Str → List Str → Bool
  | [], [] => false
  | [], _ :: _ => true
  | _ :: _, [] => false
  | a :: as, b :: bs => if a = b then partsLt as bs else charsLt a b

theorem partsLt_of_le_of_ne : ∀ {a b : List Str},
    partsLe a b = true → a ≠ b → partsLt a b = true := by
  intro a
  induction a with
  | nil =>
    intro b _ hne
    cases b with
    | nil => exact absurd rfl hne
    | cons bh bt => rfl
  | cons ah at' ih =>
    intro b hle hne
    cases b with
    | nil => cases hle
    | cons bh bt =>
      simp only [partsLe] at hle
      simp only [partsLt]
      by_cases h1 : ah = bh
      · subst h1
        rw [if_pos rfl] at hle
        rw [if_pos rfl]
        exact ih hle (fun h => hne (by rw [h]))
      · rw [if_neg h1] at hle
        rw [if_neg h1]
        exact hle

/-- Inserting into the sorted prefix is a permutation of consing. -/
theorem insertEntry_perm (e : FSEntry) : ∀ l : List FSEntry, List.Perm (insertEntry e l) (e :: l) := by
  intro l
  induction l with
  | nil => exact List.Perm.refl _
  | cons f rest ih =>
    simp only [insertEntry]
    by_cases h : partsLe e.parts f.parts = true
    · rw [if_pos h]
    · rw [if_neg h]
      exact (ih.cons f).trans (List.Perm.swap e f rest)

/-- The stable sort permutes its input. -/
theorem sortEntries_perm : ∀ l : List FSEntry, List.Perm (sortEntries l) l := by
  intro l
  induction l with
  | nil => exact List.Perm.refl _
  | cons e rest ih => exact (insertEntry_perm e (sortEntries rest)).trans (ih.cons e)

/-- Inserting below a lower bound keeps the element in front. -/
theorem insertEntry_of_le {e : FSEntry} : ∀ {m : List FSEntry},
    (∀ z ∈ m, partsLe e.parts z.parts = true) → insertEntry e m = e :: m := by
  intro m hm
  cases m with
  | nil => rfl
  | cons z zs =>
    simp only [insertEntry]
    rw [if_pos (hm z (List.mem_cons_self z zs))]

/-- Insertion preserves sortedness. -/
theorem insertEntry_pairwise {e : FSEntry} : ∀ {l : List FSEntry},
    List.Pairwise (fun a b => partsLe a.parts b.parts = true) l →
    List.Pairwise (fun a b => partsLe a.parts b.parts = true) (insertEntry e l) := by
  intro l
  induction l with
  | nil =>
    intro _
    exact List.pairwise_singleton _ e
  | cons f rest ih =>
    intro hp
    rcases List.pairwise_cons.mp hp with ⟨hf, hrest⟩
    simp only [insertEntry]
    by_cases h : partsLe e.parts f.parts = true
    · rw [if_pos h]
      refine List.pairwise_cons.mpr ⟨?_, hp⟩
      intro z hz
      rcases List.mem_cons.mp hz with rfl | hz'
      · exact h
      · exact partsLe_trans h (hf z hz')
    · rw [if_neg h]
      have hfe : partsLe f.parts e.parts = true := by
        rcases partsLe_total e.parts f.parts with h2 | h2
        · exact absurd h2 h
        · exact h2
      refine List.pairwise_cons.mpr ⟨?_, ih hrest⟩
      intro z hz
      have hz2 : z ∈ e :: rest := (insertEntry_perm e rest).mem_iff.mp hz
      rcases List.mem_cons.mp hz2 with rfl | hz'
      · exact hfe
      · exact hf z hz'

/-- The sort of tree entries is sorted. -/
theorem sortEntries_pairwise : ∀ l : List FSEntry,
    List.Pairwise (fun a b => partsLe a.parts b.parts = true) (sortEntries l) := by
  intro l
  induction l with
  | nil => exact List.Pairwise.nil
  | cons e rest ih => exact insertEntry_pairwise ih

/-- Accumulator loop splitting a joined path back on `/`. -/
def splitSlashAux : Str → Str → List Str
  | [], acc => [acc.reverse]
  | c :: cs, acc =>
    if c = '/' then acc.reverse :: splitSlashAux cs [] else splitSlashAux cs (c :: acc)

/-- Splitting a rendered relative path on `/` (Python `s.split("/")`),
the inverse of `joinSlash` on slash-free components. -/
def splitSlash (s : Str) : List Str := splitSlashAux s []

theorem splitSlashAux_no_slash : ∀ {p : Str}, (∀ c ∈ p, c ≠ '/') →
    ∀ acc, splitSlashAux p acc = [acc.reverse ++ p] := by
  intro p
  induction p with
  | nil =>
    intro _ acc
    simp [splitSlashAux]
  | cons c cs ih =>
    intro hp acc
    have hc : c ≠ '/' := hp c (List.mem_cons_self c cs)
    simp only [splitSlashAux, if_neg hc]
    rw [ih (fun d hd => hp d (List.mem_cons_of_mem c hd)) (c :: acc)]
    simp

theorem splitSlashAux_append : ∀ {p : Str}, (∀ c ∈ p, c ≠ '/') →
    ∀ (q : Str) (acc : Str),
      splitSlashAux (p ++ '/' :: q) acc = (acc.reverse ++ p) :: splitSlashAux q [] := by
  intro p
  induction p with
  | nil =>
    intro _ q acc
    simp [splitSlashAux]
  | cons c cs ih =>
    intro hp q acc
    have hc : c ≠ '/' := hp c (List.mem_cons_self c cs)
    simp only [List.cons_append, splitSlashAux, if_neg hc, List.append_eq]
    rw [ih (fun d hd => hp d (List.mem_cons_of_mem c hd)) q (c :: acc)]
    simp

/-- On non-empty component lists whose components contain no `/`,
splitting undoes joining. -/
theorem splitSlash_joinSlash : ∀ parts : List Str, parts ≠ [] →
    (∀ p ∈ parts, ∀ c ∈ p, c ≠ '/') → splitSlash (joinSlash parts) = parts := by
  intro parts
  induction parts with
  | nil =>
    intro h _
    exact absurd rfl h
  | cons p rest ih =>
    intro _ hp
    cases rest with
    | nil =>
      have : splitSlash (joinSlash [p]) = [[] ++ p] :=
        splitSlashAux_no_slash (hp p (List.mem_cons_self p [])) []
      simpa using this
    | cons r rs =>
      have hjoin : joinSlash (p :: r :: rs) = p ++ '/' :: joinSlash (r :: rs) := rfl
      unfold splitSlash
      rw [hjoin, splitSlashAux_append (hp p (List.mem_cons_self p _)) _ []]
      have ihr := ih (by simp) (fun q hq => hp q (List.mem_cons_of_mem p hq))
      unfold splitSlash at ihr
      rw [ihr]
      simp

/-- Members of the YAML scanner's output carry indices at least the
running index. -/
theorem yamlLines_le_of_mem : ∀ {lines : List Str} {inRun : Bool} {i : Nat} {p : Nat × Str},
    p ∈ yamlLines lines inRun i → i ≤ p.1 := by
  intro lines
  induction lines with
  | nil =>
    intro inRun i p hp
    cases hp
  | cons line rest ih =>
    intro inRun i p hp
    simp only [yamlLines] at hp
    by_cases h1 : yamlRunEntry (strip line) = true
    · rw [if_pos h1] at hp
      exact Nat.le_of_succ_le (ih hp)
    · rw [if_neg h1] at hp
      by_cases h2 : (inRun && !(strip line).isEmpty && !yamlKeyLine (strip line)) = true
      · rw [if_pos h2] at hp
        rcases List.mem_cons.mp hp with rfl | hp'
        · exact Nat.le_refl i
        · exact Nat.le_of_succ_le (ih hp')
      · rw [if_neg h2] at hp
        by_cases h3 : yamlKeyLine (strip line) = true
        · rw [if_pos h3] at hp
          exact Nat.le_of_succ_le (ih hp)
        · rw [if_neg h3] at hp
          exact Nat.le_of_succ_le (ih hp)

/-- The YAML scanner yields strictly increasing line numbers. -/
theorem yamlLines_pairwise : ∀ (lines : List Str) (inRun : Bool) (i : Nat),
    List.Pairwise (fun p q : Nat × Str => p.1 < q.1) (yamlLines lines inRun i) := by
  intro lines
  induction lines with
  | nil =>
    intro inRun i
    exact List.Pairwise.nil
  | cons line rest ih =>
    intro inRun i
    simp only [yamlLines]
    by_cases h1 : yamlRunEntry (strip line) = true
    · rw [if_pos h1]
      exact ih true (i + 1)
    · rw [if_neg h1]
      by_cases h2 : (inRun && !(strip line).isEmpty && !yamlKeyLine (strip line)) = true
      · rw [if_pos h2]
        refine List.Pairwise.cons ?_ (ih inRun (i + 1))
        intro q hq
        exact Nat.lt_of_succ_le (yamlLines_le_of_mem hq)
      · rw [if_neg h2]
        by_cases h3 : yamlKeyLine (strip line) = true
        · rw [if_pos h3]
          exact ih false (i + 1)
        · rw [if_neg h3]
          exact ih inRun (i + 1)

/-- A `filterMap` that preserves the index component preserves strict
index ordering. -/
theorem pairwise_fst_filterMap {f : Nat × Str → Option (Nat × Str)}
    (hf : ∀ p q, q ∈ f p → q.1 = p.1) {l : List (Nat × Str)}
    (hl : List.Pairwise (fun p q => p.1 < q.1) l) :
    List.Pairwise (fun p q : Nat × Str => p.1 < q.1) (l.filterMap f) := by
  refine List.pairwise_filterMap.mpr (hl.imp ?_)
  intro p q h b hb b' hb'
  rw [hf p b hb, hf q b' hb']
  exact h

/-- Every branch of the Line Classifier yields strictly increasing line
numbers. -/
theorem parse_file_pairwise (e : FSEntry) :
    List.Pairwise (fun p q : Nat × Str => p.1 < q.1) (parse_file e) := by
  unfold parse_file
  cases e.content with
  | none => exact List.Pairwise.nil
  | some text =>
    dsimp only
    split
    · exact enumFrom_pairwise 1 _
    · split
      · unfold dockerLines
        refine pairwise_fst_filterMap ?_ (enumFrom_pairwise 1 _)
        intro p q hq
        dsimp only at hq
        by_cases hc : isRunInstruction (strip p.2) = true
        · rw [if_pos hc, Option.mem_def] at hq
          injection hq with hq2
          rw [← hq2]
        · rw [if_neg hc] at hq
          cases hq
      · split
        · unfold makeLines
          refine pairwise_fst_filterMap ?_ (enumFrom_pairwise 1 _)
          intro p q hq
          by_cases hc : p.2.head? = some '\t'
          · rw [if_pos hc, Option.mem_def] at hq
            injection hq with hq2
            rw [← hq2]
          · rw [if_neg hc] at hq
            cases hq
        · split
          · exact yamlLines_pairwise _ false 1
          · exact List.Pairwise.nil

/-- Every finding of one line carries that line's number and the entry's
rendered path. -/
theorem mem_lineFindings {targets : Finset Platform} {e : FSEntry} {p : Nat × Str}
    {x : ScanFinding} (hx : x ∈ lineFindings targets e p) :
    x.file = joinSlash e.parts ∧ x.line = p.1 := by
  unfold lineFindings at hx
  rcases List.mem_flatMap.mp hx with ⟨inv, _, hx2⟩
  rcases List.mem_map.mp hx2 with ⟨f, _, rfl⟩
  exact ⟨rfl, rfl⟩

theorem mem_fileFindings {targets : Finset Platform} {e : FSEntry} {x : ScanFinding}
    (hx : x ∈ fileFindings targets e) : x.file = joinSlash e.parts := by
  unfold fileFindings at hx
  rcases List.mem_flatMap.mp hx with ⟨p, _, hx2⟩
  exact (mem_lineFindings hx2).1

/-- Within one file the findings appear in non-decreasing line order. -/
theorem fileFindings_line_pairwise (targets : Finset Platform) (e : FSEntry) :
    List.Pairwise (fun a b : ScanFinding => a.line ≤ b.line) (fileFindings targets e) := by
  unfold fileFindings
  refine List.pairwise_flatMap.mpr ⟨?_, ?_⟩
  · intro p _
    refine List.pairwise_of_forall_mem_list ?_
    intro a ha b hb
    rw [(mem_lineFindings ha).2, (mem_lineFindings hb).2]
  · refine (parse_file_pairwise e).imp ?_
    intro p q h x hx y hy
    rw [(mem_lineFindings hx).2, (mem_lineFindings hy).2]
    exact Nat.le_of_lt h

/-- Ordering of findings by the component tuple of the rendered relative
path (the order `sorted(Path...)` traverses), then by line number. -/
def findingKeyLe (f g : ScanFinding) : Bool :=
  partsLt (splitSlash f.file) (splitSlash g.file) ||
  (decide (splitSlash f.file = splitSlash g.file) && decide (f.line ≤ g.line))

/-- The three-entry tree with files `a.sh` and `a/x.sh`: Python sorts
`Path` objects by their component tuples, which puts `a/x.sh` before
`a.sh`, while plain string comparison of the relative paths puts `a.sh`
first. -/
def fsDemo : List FSEntry :=
  [⟨["a.sh".toList], true, some "sed -i x f".toList⟩,
   ⟨["a".toList], false, none⟩,
   ⟨["a".toList, "x.sh".toList], true, some "grep -P y f".toList⟩]

/-- C6 counterexample: the scan of `fsDemo` against {linux, macos}
reports `a/x.sh` before `a.sh`, although `"a.sh" < "a/x.sh"` in string
order — so the output is not sorted lexicographically by the relative
path string. -/
theorem scan_order_counterexample :
    (scan fsDemo lmTargets).map (fun f => f.file) = ["a/x.sh".toList, "a.sh".toList] ∧
    charsLt "a.sh".toList "a/x.sh".toList = true := by decide

/-- C6 amended: for trees whose entries have well-formed relative paths
(non-empty component lists, no `/` inside a component, no duplicate
paths), the findings of `scan` are sorted by the component tuple of the
file path — the order in which Python compares `Path` objects — and,
within one file, by ascending line number. -/
theorem scan_sorted_by_parts :
    ∀ (fs : List FSEntry) (targets : Finset Platform),
      (∀ e ∈ fs, e.parts ≠ [] ∧ ∀ p ∈ e.parts, ∀ c ∈ p, c ≠ '/') →
      (fs.map FSEntry.parts).Nodup →
      List.Pairwise (fun f g => findingKeyLe f g = true) (scan fs targets) := by
  intro fs targets hcomp hnodup
  unfold scan
  refine List.pairwise_flatMap.mpr ⟨?_, ?_⟩
  · intro e _
    by_cases helig : eligible e = true
    · rw [if_pos helig]
      refine (fileFindings_line_pairwise targets e).imp_of_mem ?_
      intro a b ha hb hle
      unfold findingKeyLe
      rw [Bool.or_eq_true, Bool.and_eq_true]
      right
      refine ⟨decide_eq_true ?_, decide_eq_true hle⟩
      rw [mem_fileFindings ha, mem_fileFindings hb]
    · rw [if_neg helig]
      exact List.Pairwise.nil
  · have hsorted := sortEntries_pairwise fs
    have hnodup2 : ((sortEntries fs).map FSEntry.parts).Nodup :=
      ((sortEntries_perm fs).map FSEntry.parts).nodup_iff.mpr hnodup
    have hne : List.Pairwise (fun a b : FSEntry => a.parts ≠ b.parts) (sortEntries fs) :=
      List.pairwise_map.mp hnodup2
    have hstrict : List.Pairwise (fun a b : FSEntry => partsLt a.parts b.parts = true)
        (sortEntries fs) := by
      refine (hsorted.and hne).imp ?_
      intro a b hab
      exact partsLt_of_le_of_ne hab.1 hab.2
    refine hstrict.imp_of_mem ?_
    intro a b ha hb hab x hx y hy
    have hax : x ∈ fileFindings targets a := by
      by_cases helig : eligible a = true
      · rwa [if_pos helig] at hx
      · rw [if_neg helig] at hx
        cases hx
    have hby : y ∈ fileFindings targets b := by
      by_cases helig : eligible b = true
      · rwa [if_pos helig] at hy
      · rw [if_neg helig] at hy
        cases hy
    obtain ⟨hano, hasl⟩ := hcomp a ((sortEntries_perm fs).mem_iff.mp ha)
    obtain ⟨hbno, hbsl⟩ := hcomp b ((sortEntries_perm fs).mem_iff.mp hb)
    unfold findingKeyLe
    rw [Bool.or_eq_true]
    left
    rw [mem_fileFindings hax, mem_fileFindings hby,
      splitSlash_joinSlash a.parts hano hasl, splitSlash_joinSlash b.parts hbno hbsl]
    exact hab

theorem scan_sorted_by_parts_witness :
    List.Pairwise (fun f g => findingKeyLe f g = true) (scan fsDemo lmTargets) :=
  scan_sorted_by_parts fsDemo lmTargets (by decide) (by decide)

/-- Entries that a filter drops and that contribute nothing can be
dropped before flat-mapping. -/
theorem flatMap_filter_of_nil (F : FSEntry → List ScanFinding) (p : FSEntry → Bool)
    (h : ∀ e, p e = false → F e = []) :
    ∀ l : List FSEntry, l.flatMap F = (l.filter p).flatMap F := by
  intro l
  induction l with
  | nil => rfl
  | cons e rest ih =>
    cases hpe : p e with
    | true => simp [List.filter_cons, hpe, List.flatMap_cons, ih]
    | false => simp [List.filter_cons, hpe, List.flatMap_cons, h e hpe, ih]

theorem filter_insertEntry_neg {p : FSEntry → Bool} {e : FSEntry} (hpe : p e = false) :
    ∀ l : List FSEntry, List.filter p (insertEntry e l) = List.filter p l := by
  intro l
  induction l with
  | nil => simp [insertEntry, List.filter_cons, hpe]
  | cons f rest ih =>
    simp only [insertEntry]
    by_cases h : partsLe e.parts f.parts = true
    · rw [if_pos h]
      simp [List.filter_cons, hpe]
    · rw [if_neg h]
      simp [List.filter_cons, ih]

theorem filter_insertEntry_pos {p : FSEntry → Bool} {e : FSEntry} (hpe : p e = true) :
    ∀ {l : List FSEntry},
      List.Pairwise (fun a b => partsLe a.parts b.parts = true) l →
      List.filter p (insertEntry e l) = insertEntry e (List.filter p l) := by
  intro l
  induction l with
  | nil =>
    intro _
    simp [insertEntry, List.filter_cons, hpe]
  | cons f rest ih =>
    intro hp
    rcases List.pairwise_cons.mp hp with ⟨hf, hrest⟩
    simp only [insertEntry]
    by_cases h : partsLe e.parts f.parts = true
    · rw [if_pos h]
      cases hpf : p f with
      | true => simp [List.filter_cons, hpe, hpf, insertEntry, h]
      | false =>
        have hall : ∀ z ∈ List.filter p rest, partsLe e.parts z.parts = true := by
          intro z hz
          exact partsLe_trans h (hf z (List.mem_of_mem_filter hz))
        simp [List.filter_cons, hpe, hpf, insertEntry_of_le hall]
    · rw [if_neg h]
      cases hpf : p f with
      | true => simp [List.filter_cons, hpf, ih hrest, insertEntry, h]
      | false => simp [List.filter_cons, hpf, ih hrest]

/-- Filtering commutes with the stable sort of tree entries. -/
theorem filter_sortEntries (p : FSEntry → Bool) :
    ∀ l : List FSEntry, List.filter p (sortEntries l) = sortEntries (List.filter p l) := by
  intro l
  induction l with
  | nil => rfl
  | cons e rest ih =>
    simp only [sortEntries]
    cases hpe : p e with
    | true =>
      rw [filter_insertEntry_pos hpe (sortEntries_pairwise rest), ih]
      simp [List.filter_cons, hpe, sortEntries]
    | false =>
      rw [filter_insertEntry_neg hpe, ih]
      simp [List.filter_cons, hpe]

/-- C9: an unreadable file — `read_text` raises `OSError`, modelled as
`content = none` — contributes zero RawLines and zero Findings, and the
scan of a tree equals the scan of the tree with every unreadable entry
removed: the failure is recovered locally, never aborts the run, and
never surfaces in the findings. -/
theorem unreadable_file_skipped :
    (∀ e : FSEntry, e.content = none →
        parse_file e = [] ∧ ∀ targets : Finset Platform, fileFindings targets e = []) ∧
    (∀ (fs : List FSEntry) (targets : Finset Platform),
        scan fs targets = scan (fs.filter (fun e => e.content.isSome)) targets) := by
  have hpf : ∀ e : FSEntry, e.content = none → parse_file e = [] := by
    intro e he
    unfold parse_file
    rw [he]
  have hff : ∀ (targets : Finset Platform) (e : FSEntry), e.content = none →
      fileFindings targets e = [] := by
    intro targets e he
    unfold fileFindings
    rw [hpf e he]
    rfl
  constructor
  · intro e he
    exact ⟨hpf e he, fun targets => hff targets e he⟩
  · intro fs targets
    unfold scan
    have hnil : ∀ e : FSEntry, (e.content.isSome) = false →
        (if eligible e then fileFindings targets e else []) = [] := by
      intro e he
      have hcn : e.content = none := by
        cases hc : e.content with
        | none => rfl
        | some t =>
          rw [hc] at he
          cases he
      by_cases helig : eligible e = true
      · rw [if_pos helig]
        exact hff targets e hcn
      · rw [if_neg helig]
    rw [flatMap_filter_of_nil _ _ hnil (sortEntries fs), filter_sortEntries]

theorem unreadable_file_skipped_witness :
    (parse_file ⟨["x.sh".toList], true, none⟩ = [] ∧
      ∀ targets : Finset Platform, fileFindings targets ⟨["x.sh".toList], true, none⟩ = []) ∧
    scan fsDemo lmTargets = scan (fsDemo.filter (fun e => e.content.isSome)) lmTargets :=
  ⟨unreadable_file_skipped.1 ⟨["x.sh".toList], true, none⟩ (by rfl),
   unreadable_file_skipped.2 fsDemo lmTargets⟩
